import Mathlib

/-!
Verification of the pycalista-ista reading-history pipeline.

The definitions below are a shallow embedding of the Python sources:
  - `pycalista_ista/models/reading.py` (Reading, negative-value check)
  - `pycalista_ista/models/device.py` (Device, bisect-based `add_reading`,
    `last_consumption`)
  - `pycalista_ista/excel_parser.py` (row backfill, date-year assignment,
    value coercion, device-row processing, ParserError wrapping)
  - `pycalista_ista/virtual_api.py` (`merge_device_histories`)

Python `datetime` values (always midnight UTC here) are embedded as
year/month/day triples ordered by a lexicographic integer key; `float`
meter values are embedded as `Rat`; raised exceptions are embedded as
`Except` errors.  Spreadsheet cells are embedded as an inductive carrying
either a string or a number, with Python falsiness made explicit.

A note on revisions: the repository mixes two revisions of the data
model.  `models/device.py` declares `Device(serial_number, device_id,
name)`, while every caller (the parser, `virtual_api`, and the whole
test-suite) uses the `Device(serial_number, location)` surface together
with a `location` attribute.  The embedding uses the caller/test surface
(serial number, location, variant tag) and keeps the empty-serial
`ValueError` check of `models/device.py`, which is the behaviour every
cited call site exercises.
-/

namespace PyCalista

/-- Python exception kinds that the embedded code can raise. -/
inductive PyErr
  | valueError
  | typeError
  | xlrdError
  | parserError
deriving DecidableEq, Repr

instance exceptDecEq {ε α : Type} [DecidableEq ε] [DecidableEq α] :
    DecidableEq (Except ε α)
  | .ok x, .ok y =>
    if h : x = y then isTrue (by rw [h])
    else isFalse (by intro hc; cases hc; exact h rfl)
  | .ok _, .error _ => isFalse (by intro hc; cases hc)
  | .error _, .ok _ => isFalse (by intro hc; cases hc)
  | .error e, .error f =>
    if h : e = f then isTrue (by rw [h])
    else isFalse (by intro hc; cases hc; exact h rfl)

/-- A calendar date (midnight UTC `datetime` in the source). -/
structure Date where
  year : Int
  month : Nat
  day : Nat
deriving DecidableEq, Repr

/-- Lexicographic comparison key for dates, mirroring `datetime` order. -/
def Date.key (d : Date) : Int :=
  d.year * 10000 + (d.month : Int) * 100 + (d.day : Int)

/-- One meter reading: `models/reading.py`, a frozen dataclass of a
timestamp and a float value. -/
structure Reading where
  date : Date
  value : Rat
deriving DecidableEq, Repr

/-- Embeds `Reading.__post_init__`: constructing a reading with a negative value
raises `ValueError`. -/
def mk_reading (date : Date) (value : Rat) : Except PyErr Reading :=
  if value < 0 then .error .valueError else .ok ⟨date, value⟩

/-- Spreadsheet cell contents as seen by the parser: a string or a
number (xlrd renders empty cells as the empty string). -/
inductive CellValue
  | str (s : String)
  | num (q : Rat)
deriving DecidableEq, Repr

/-- Python falsiness for cell contents (`if reading`, `if not value`):
the empty string and the number 0 are falsy. -/
def CellValue.falsy : CellValue → Bool
  | .str s => s = ""
  | .num q => q = 0

/-- Device classification tags (the source's class hierarchy:
`HeatingDevice`, `HotWaterDevice`, `ColdWaterDevice`, bare `Device`). -/
inductive DeviceVariant
  | generic
  | heating
  | hotWater
  | coldWater
deriving DecidableEq, Repr

/-- A meter device: serial number, location, classification tag and
reading history (`models/device.py` plus subclasses). -/
structure Device where
  serial_number : CellValue
  location : CellValue
  variant : DeviceVariant
  history : List Reading
deriving DecidableEq, Repr

/-- Embeds `bisect.insort(history, r, key=lambda x: x.date)`: ordered insertion
that places the new reading after any reading with an equal date. -/
def insort : List Reading → Reading → List Reading
  | [], r => [r]
  | x :: xs, r => if r.date.key < x.date.key then r :: x :: xs else x :: insort xs r

/-- Embeds `Device.add_reading`: reject negative values with `ValueError`, then
append to an empty history or insert in date order. -/
def add_reading (d : Device) (r : Reading) : Except PyErr Device :=
  if r.value < 0 then .error .valueError
  else if d.history.isEmpty then .ok { d with history := [r] }
  else .ok { d with history := insort d.history r }

/-- Embeds `Device.add_reading_value`: build the `Reading` (which validates
non-negativity) and delegate to `add_reading`. -/
def add_reading_value (d : Device) (value : Rat) (date : Date) : Except PyErr Device :=
  match mk_reading date value with
  | .error e => .error e
  | .ok r => add_reading d r

/-- One mutation call on a device, as in the claim "any sequence of
`add_reading` / `add_reading_value` calls". -/
inductive DevCall
  | callAddReading (r : Reading)
  | callAddReadingValue (value : Rat) (date : Date)

/-- Run one mutation call. -/
def apply_call (d : Device) : DevCall → Except PyErr Device
  | .callAddReading r => add_reading d r
  | .callAddReadingValue v dt => add_reading_value d v dt

/-- Run a sequence of mutation calls; a raised exception aborts the
sequence (as it would in Python). -/
def apply_calls : Device → List DevCall → Except PyErr Device
  | d, [] => .ok d
  | d, c :: cs =>
    match apply_call d c with
    | .error e => .error e
    | .ok d2 => apply_calls d2 cs

/-- History ordering invariant: ascending by timestamp. -/
def sorted_by_date (l : List Reading) : Prop :=
  l.Pairwise (fun a b => a.date.key ≤ b.date.key)

instance (l : List Reading) : Decidable (sorted_by_date l) :=
  List.instDecidablePairwise l

/-- Outcome of the `Device.last_consumption` property: `None`, a
consumption `Reading`, or a raised exception. -/
inductive ConsumptionResult
  | noData
  | ok (r : Reading)
  | raised (e : PyErr)
deriving DecidableEq, Repr

/-- Embeds `Device.last_consumption`: `None` when fewer than two readings exist,
otherwise `Reading(date=last.date, reading=last - previous)`, whose
construction raises `ValueError` when the difference is negative. -/
def last_consumption (d : Device) : ConsumptionResult :=
  match d.history.reverse with
  | last :: previous :: _ =>
    match mk_reading last.date (last.value - previous.value) with
    | .error e => .raised e
    | .ok r => .ok r
  | _ => .noData

/-! ### Excel parser: dates, value coercion, year assignment -/

/-- Metadata column keys (`METADATA_COLUMNS` in `excel_parser.py`). -/
def METADATA_COLUMNS : List String := ["tipo", "n_serie", "ubicacion"]

/-- Value of a digit string (digits only, most significant first). -/
def digits_to_nat (l : List Char) : Nat :=
  l.foldl (fun acc c => acc * 10 + (c.toNat - 48)) 0

/-- Split a character list on a separator character. -/
def split_on_char (c : Char) (l : List Char) : List (List Char) :=
  l.foldr
    (fun ch acc =>
      if ch = c then [] :: acc
      else
        match acc with
        | g :: gs => (ch :: g) :: gs
        | [] => [[ch]])
    [[]]

/-- Model of Python `float(s)` on plain decimal strings: surrounding
whitespace, an optional sign, digits with at most one decimal point and
at least one digit.  (The scientific/inf/nan forms `float` also accepts
never occur in meter cells and are not modelled.) -/
def parse_float (s : String) : Option Rat :=
  let t := ((s.data.dropWhile Char.isWhitespace).reverse.dropWhile Char.isWhitespace).reverse
  let signed : Int × List Char :=
    match t with
    | '-' :: rest => (-1, rest)
    | '+' :: rest => (1, rest)
    | _ => (1, t)
  match split_on_char '.' signed.2 with
  | [ip] =>
    if !ip.isEmpty && ip.all Char.isDigit then
      some (mkRat (signed.1 * (digits_to_nat ip : Int)) 1)
    else Option.none
  | [ip, fp] =>
    if !(ip.isEmpty && fp.isEmpty) && ip.all Char.isDigit && fp.all Char.isDigit then
      some (mkRat
        (signed.1 * ((digits_to_nat ip : Int) * (10 : Int) ^ fp.length + (digits_to_nat fp : Int)))
        ((10 : Nat) ^ fp.length))
    else Option.none
  | _ => Option.none

/-- Embeds `str(reading).replace(",", ".")`: every comma becomes a dot. -/
def py_replace_comma (s : String) : String :=
  ⟨s.data.map (fun ch => if ch = ',' then '.' else ch)⟩

/-- Proleptic-Gregorian leap-year rule used by `datetime`. -/
def is_leap (y : Int) : Bool :=
  (y % 4 == 0 && y % 100 != 0) || (y % 400 == 0)

/-- Days in a month, as validated by `datetime`. -/
def days_in_month (y : Int) (m : Nat) : Nat :=
  if m = 2 then (if is_leap y then 29 else 28)
  else if m = 4 ∨ m = 6 ∨ m = 9 ∨ m = 11 then 30
  else 31

/-- Whether year/month/day form a real calendar date. -/
def valid_date (y : Int) (m d : Nat) : Bool :=
  decide (1 ≤ m ∧ m ≤ 12 ∧ 1 ≤ d ∧ d ≤ days_in_month y m)

/-- The day/month part of `strptime(f"{date_str}/{year}", "%d/%m/%Y")`:
the header must be exactly two slash-separated fields of one or two
digits (range validity is checked by `valid_date`). -/
def parse_dm (s : String) : Option (Nat × Nat) :=
  match split_on_char '/' s.data with
  | [ds, ms] =>
    if !ds.isEmpty && decide (ds.length ≤ 2) && ds.all Char.isDigit &&
        !ms.isEmpty && decide (ms.length ≤ 2) && ms.all Char.isDigit then
      some (digits_to_nat ds, digits_to_nat ms)
    else Option.none
  | _ => Option.none

/-- One pass of `ExcelParser._fill_missing_readings` over a single row,
processing columns from the last header to the first (Python iterates
`reversed(headers)`); returns the final `previous_reading_value`
together with the updated row.  The initial `previous_reading_value` is
Python's `None`, represented by the (equally falsy) empty string, which
is never written into the row since only truthy values are copied. -/
def fill_cells : List (String × CellValue) → CellValue × List (String × CellValue)
  | [] => (.str "", [])
  | (h, v) :: rest =>
    if v.falsy = true ∧ (fill_cells rest).1.falsy = false then
      if h ∈ METADATA_COLUMNS then
        ((fill_cells rest).1, (h, .str "") :: (fill_cells rest).2)
      else
        ((fill_cells rest).1, (h, (fill_cells rest).1) :: (fill_cells rest).2)
    else
      if h ∈ METADATA_COLUMNS then ((fill_cells rest).1, (h, v) :: (fill_cells rest).2)
      else (v, (h, v) :: (fill_cells rest).2)

/-- Embeds `ExcelParser._fill_missing_readings`: apply the backfill pass to
every row. -/
def fill_missing_readings (rows : List (List (String × CellValue))) :
    List (List (String × CellValue)) :=
  rows.map (fun r => (fill_cells r).2)

/-- The `previous_reading_value` carried into a position, computed from
the columns to its right: metadata columns are skipped, a falsy value
with a truthy carry keeps the carry, and otherwise the column's own
value becomes the carry. -/
def prev_after : List (String × CellValue) → CellValue
  | [] => .str ""
  | (h, v) :: rest =>
    if h ∈ METADATA_COLUMNS then prev_after rest
    else if v.falsy = true ∧ (prev_after rest).falsy = false then prev_after rest
    else v

/-- The first truthy non-metadata value of a column list (the "next
available value" to the right of a position). -/
def first_available : List (String × CellValue) → Option CellValue
  | [] => Option.none
  | (h, v) :: rest =>
    if h ∈ METADATA_COLUMNS ∨ v.falsy = true then first_available rest
    else some v

/-- What the backfill writes into one cell, given the carried
`previous_reading_value` `p` from the columns to its right. -/
def fill_step (h : String) (v p : CellValue) : CellValue :=
  if v.falsy = true ∧ p.falsy = false then
    (if h ∈ METADATA_COLUMNS then .str "" else p)
  else v

/-- Embeds `ExcelParser._parse_reading_date` (given an already-split day/month):
parse with the current year, then re-stamp the year to `current_year`
for the first header and to `previous_year`/`current_year` afterwards
according to `in_previous_year`; any invalid date raises `ValueError`
(returned here as `none`). -/
def parse_reading_date (current_year : Int) (d m : Nat) (last : Option Date)
    (previous_year : Int) (in_previous_year : Bool) : Option Date :=
  if valid_date current_year m d then
    match last with
    | Option.none => some ⟨current_year, m, d⟩
    | some _ =>
      let y := if in_previous_year then previous_year else current_year
      if valid_date y m d then some ⟨y, m, d⟩ else Option.none
  else Option.none

/-- Embeds `float(str(reading).replace(",", ".")) if reading else 0.0`:
falsy cells coerce to 0.0 without parsing; strings are parsed after the
comma-to-dot substitution; a failed parse raises `ValueError` (`none`). -/
def convert_cell (c : CellValue) : Option Rat :=
  if c.falsy then some 0
  else
    match c with
    | .num q => some q
    | .str s => parse_float (py_replace_comma s)

/-- The loop body of `ExcelParser._add_device_readings`: per reading,
parse the date (a failure is caught and the reading skipped), update the
`in_previous_year` flag when the parsed month exceeds the previous
header's month (0 when there is none), then coerce and add the value
(conversion or negative-value errors are caught and the reading
skipped, with the date state already advanced). -/
def add_readings_loop (current_year : Int) :
    Device → Option Date → Bool → List (String × CellValue) → Device
  | dev, _, _, [] => dev
  | dev, last, ipy, (key, cell) :: rest =>
    match parse_dm key with
    | Option.none => add_readings_loop current_year dev last ipy rest
    | some (d, m) =>
      match parse_reading_date current_year d m last (current_year - 1) ipy with
      | Option.none => add_readings_loop current_year dev last ipy rest
      | some rd =>
        let lastMonth : Nat := match last with | some l => l.month | Option.none => 0
        let ipy2 := if rd.month > lastMonth then true else ipy
        match convert_cell cell with
        | Option.none => add_readings_loop current_year dev (some rd) ipy2 rest
        | some v =>
          if v < 0 then add_readings_loop current_year dev (some rd) ipy2 rest
          else
            add_readings_loop current_year
              { dev with
                history := if dev.history.isEmpty then [⟨rd, v⟩] else insort dev.history ⟨rd, v⟩ }
              (some rd) ipy2 rest

/-- Embeds `ExcelParser._add_device_readings`: process the readings of one row
in export order, starting with no previous date and
`in_previous_year = False`. -/
def add_device_readings (current_year : Int) (dev : Device)
    (readings : List (String × CellValue)) : Device :=
  add_readings_loop current_year dev Option.none false readings

/-! ### Row dictionaries, device rows and the full parse pipeline -/

/-- Python-dict lookup on an association list (first match). -/
def alist_lookup {κ α : Type} [DecidableEq κ] : List (κ × α) → κ → Option α
  | [], _ => Option.none
  | (k2, v) :: rest, k => if k = k2 then some v else alist_lookup rest k

/-- Python-dict assignment on an association list: overwrite in place,
or append a new key at the end (dict insertion order). -/
def alist_set {κ α : Type} [DecidableEq κ] : List (κ × α) → κ → α → List (κ × α)
  | [], k, v => [(k, v)]
  | (k2, v2) :: rest, k, v =>
    if k = k2 then (k, v) :: rest else (k2, v2) :: alist_set rest k v

/-- Embeds `ExcelParser._normalize_headers` on one header:
`strip().lower().replace("º", "").replace(" ", "_")`.  (`Char.toLower`
lower-cases ASCII letters; the accented letters appearing in real
headers are already lower case.) -/
def normalize_header (s : String) : String :=
  ⟨((((s.data.dropWhile Char.isWhitespace).reverse.dropWhile Char.isWhitespace).reverse.map
      Char.toLower).filter (fun c => c ≠ 'º')).map (fun c => if c = ' ' then '_' else c)⟩

/-- Embeds `ExcelParser._normalize_headers`. -/
def normalize_headers (hs : List String) : List String :=
  hs.map normalize_header

/-- Embeds `{headers[i]: row_values[i] for i in range(len(headers))}`: build the
row dictionary; a duplicate normalized header keeps its first position
with the later value winning.  (xlrd always supplies one cell per header
column, so the two lists are zipped.) -/
def build_row_dict (headers : List String) (vals : List CellValue) :
    List (String × CellValue) :=
  (List.zip headers vals).foldl (fun acc p => alist_set acc p.1 p.2) []

/-- Vendor type markers (`COLD_WATER_TYPE`, `HOT_WATER_TYPE`,
`HEATING_TYPE` in `excel_parser.py`). -/
def COLD_WATER_TYPE : String := "Radio agua fría"

/-- Hot-water marker. -/
def HOT_WATER_TYPE : String := "Radio agua caliente"

/-- Heating marker. -/
def HEATING_TYPE : String := "Distribuidor de Costes de Calefacción"

/-- Python's `needle in hay` on strings. -/
def str_contains (hay needle : String) : Bool :=
  decide (List.IsInfix needle.data hay.data)

/-- Constructing a device (`Device.__init__` via the parser's
`ColdWaterDevice(serial_number, location)`-style calls): an empty/falsy
serial number raises `ValueError`. -/
def mk_device (variant : DeviceVariant) (serial location : CellValue) :
    Except PyErr Device :=
  if serial.falsy then .error .valueError else .ok ⟨serial, location, variant, []⟩

/-- Embeds `ExcelParser._create_device`: classify by substring match against
the vendor markers, in source order; unknown types yield no device. -/
def create_device (device_type : String) (serial location : CellValue) :
    Except PyErr (Option Device) :=
  if str_contains device_type COLD_WATER_TYPE then
    (mk_device .coldWater serial location).map some
  else if str_contains device_type HOT_WATER_TYPE then
    (mk_device .hotWater serial location).map some
  else if str_contains device_type HEATING_TYPE then
    (mk_device .heating serial location).map some
  else .ok Option.none

/-- Embeds `row.get(key, "")`. -/
def get_row_value (row : List (String × CellValue)) (key : String) : CellValue :=
  (alist_lookup row key).getD (.str "")

/-- Embeds `ExcelParser._process_device_row`: extract metadata, classify the
device (a non-string type cell would make Python's `in` raise
`TypeError`), skip unknown types with a warning, and add the row's
non-metadata readings. -/
def process_device_row (cy : Int) (row : List (String × CellValue)) :
    Except PyErr (Option Device) :=
  match get_row_value row "tipo" with
  | .num _ => .error .typeError
  | .str t =>
    match create_device t (get_row_value row "n_serie") (get_row_value row "ubicacion") with
    | .error e => .error e
    | .ok Option.none => .ok Option.none
    | .ok (some dev) =>
      .ok (some (add_device_readings cy dev
        (row.filter (fun p => decide (p.1 ∉ METADATA_COLUMNS)))))

/-- The row loop of `ExcelParser.get_devices_history`:
`devices[device.serial_number] = device` overwrites any earlier device
with the same serial. -/
def get_devices_history_rows (cy : Int) :
    List (CellValue × Device) → List (List (String × CellValue)) →
    Except PyErr (List (CellValue × Device))
  | acc, [] => .ok acc
  | acc, row :: rest =>
    match process_device_row cy row with
    | .error e => .error e
    | .ok Option.none => get_devices_history_rows cy acc rest
    | .ok (some dev) =>
      get_devices_history_rows cy (alist_set acc dev.serial_number dev) rest

/-- The raw input of one parse call, as the parser can observe it
through `io_file.read()` and `xlrd.open_workbook`: empty bytes, bytes
xlrd rejects, or a workbook whose first sheet has a header row and data
rows. -/
inductive ExcelFile
  | emptyFile
  | corrupt
  | sheet (rawHeaders : List String) (rows : List (List CellValue))

/-- Embeds `ExcelParser._get_rows_as_dict` (with `_process_sheet` inlined):
empty input raises `ParserError`, an xlrd failure is re-raised as
`ParserError`, and otherwise the sheet's rows are keyed by the
normalized headers and backfilled. -/
def get_rows_as_dict : ExcelFile → Except PyErr (List (List (String × CellValue)))
  | .emptyFile => .error .parserError
  | .corrupt => .error .parserError
  | .sheet rawHeaders rows =>
    .ok (fill_missing_readings (rows.map (build_row_dict (normalize_headers rawHeaders))))

/-- Embeds `ExcelParser.get_devices_history`: run the pipeline and re-raise
any exception whatsoever as `ParserError` (the `except Exception`
catch-all). -/
def get_devices_history_inner (cy : Int) (file : ExcelFile) :
    Except PyErr (List (CellValue × Device)) :=
  match get_rows_as_dict file with
  | .error e => .error e
  | .ok rows => get_devices_history_rows cy [] rows

/-- The catch-all of `ExcelParser.get_devices_history`: any internal
exception is re-raised as `ParserError`. -/
def get_devices_history (cy : Int) (file : ExcelFile) :
    Except PyErr (List (CellValue × Device)) :=
  match get_devices_history_inner cy file with
  | .ok m => .ok m
  | .error _ => .error .parserError

/-- The device produced by the last row whose serial is `s` (among rows
that produce a device at all), starting from `acc`. -/
def last_device_from (cy : Int) (s : CellValue) :
    Option Device → List (List (String × CellValue)) → Option Device
  | acc, [] => acc
  | acc, row :: rest =>
    match process_device_row cy row with
    | .ok (some d) =>
      last_device_from cy s (if d.serial_number = s then some d else acc) rest
    | _ => last_device_from cy s acc rest

/-! ### Merging device maps across fetch windows -/

/-- The inner loop of `VirtualApi.merge_device_histories`:
`for reading in device.history: existing_device.add_reading(reading)`. -/
def add_readings_list : Device → List Reading → Except PyErr Device
  | d, [] => .ok d
  | d, r :: rs =>
    match add_reading d r with
    | .error e => .error e
    | .ok d2 => add_readings_list d2 rs

/-- One window of `VirtualApi.merge_device_histories`: first-seen
serials are inserted as is, already-present serials have the window's
readings added to the existing device. -/
def merge_one :
    List (CellValue × Device) → List (CellValue × Device) →
    Except PyErr (List (CellValue × Device))
  | acc, [] => .ok acc
  | acc, (s, dev) :: rest =>
    match alist_lookup acc s with
    | Option.none => merge_one (alist_set acc s dev) rest
    | some ex =>
      match add_readings_list ex dev.history with
      | .error e => .error e
      | .ok d2 => merge_one (alist_set acc s d2) rest

/-- The outer loop of `VirtualApi.merge_device_histories` over the
window list. -/
def merge_loop :
    List (CellValue × Device) → List (List (CellValue × Device)) →
    Except PyErr (List (CellValue × Device))
  | acc, [] => .ok acc
  | acc, dl :: dls =>
    match merge_one acc dl with
    | .error e => .error e
    | .ok acc2 => merge_loop acc2 dls

/-- Embeds `VirtualApi.merge_device_histories`. -/
def merge_device_histories (dls : List (List (CellValue × Device))) :
    Except PyErr (List (CellValue × Device)) :=
  merge_loop [] dls

/-- The device of the first window containing serial `s`. -/
def first_device (s : CellValue) : List (List (CellValue × Device)) → Option Device
  | [] => Option.none
  | dl :: dls =>
    match alist_lookup dl s with
    | some d => some d
    | Option.none => first_device s dls

/-- All readings recorded for serial `s` across the windows, in window
order. -/
def histories_for (s : CellValue) (dls : List (List (CellValue × Device))) : List Reading :=
  (dls.map (fun dl =>
    match alist_lookup dl s with
    | some d => d.history
    | Option.none => [])).flatten

/-- All meter values in all windows are non-negative (guaranteed by the
`Reading` constructor in the source). -/
@[reducible] def all_histories_nonneg (dls : List (List (CellValue × Device))) : Prop :=
  ∀ dl ∈ dls, ∀ p ∈ dl, ∀ r ∈ (Prod.snd p).history, 0 ≤ r.value

/-- Every window is a dict: its serial keys are distinct. -/
@[reducible] def all_keys_nodup (dls : List (List (CellValue × Device))) : Prop :=
  ∀ dl ∈ dls, ((dl.map Prod.fst).Nodup : Prop)

/-- The merge invariant: after processing the windows `dls_done`, the
accumulator maps exactly the serials seen so far, each to a device with
the first-seen identity and a history that is a permutation of all
readings recorded for that serial so far. -/
def merge_inv (dls_done : List (List (CellValue × Device)))
    (acc : List (CellValue × Device)) : Prop :=
  ∀ s : CellValue,
    (first_device s dls_done = Option.none → alist_lookup acc s = Option.none) ∧
    (∀ d0, first_device s dls_done = some d0 →
      ∃ d, alist_lookup acc s = some d ∧ d.serial_number = d0.serial_number ∧
        d.location = d0.location ∧ d.variant = d0.variant ∧
        List.Perm d.history (histories_for s dls_done))

/-! ### Interpolation (spec-modelled)

`VirtualApi._interpolate_and_trim_device_reading` is exercised by the
repository's test-suite but its implementation is not among the source
files; the definitions in this section are therefore modelled from the
specification's interpolation contract (§4.3). -/

/-- Modelled from the spec: a reading whose value may be explicitly
missing (`None` in the newer data model that the interpolator and its
tests use); the source files only carry the always-present variant. -/
structure MReading where
  date : Date
  value : Option Rat
deriving DecidableEq, Repr

/-- Modelled from the spec: ordered insertion by date, used to sort the
history before processing ("must be sorted internally before
processing"). -/
def minsort : List MReading → MReading → List MReading
  | [], r => [r]
  | x :: xs, r => if r.date.key < x.date.key then r :: x :: xs else x :: minsort xs r

/-- Modelled from the spec: insertion sort of a history by date. -/
def msort : List MReading → List MReading
  | [] => []
  | r :: rest => minsort (msort rest) r

/-- Modelled from the spec: the value of the k-th missing step
(1-indexed) of an interior gap of n missing readings bounded by
`v_start` and `v_end` — 0 on a meter reset (`v_end < v_start`), exactly
`v_start` on a flat gap, and the linear interpolation
`v_start + (v_end - v_start) * k / (n + 1)` otherwise. -/
def fill_value (vs ve : Rat) (n k : Nat) : Rat :=
  if ve < vs then 0
  else if ve = vs then vs
  else vs + (ve - vs) * (k : Rat) / ((n : Rat) + 1)

/-- Modelled from the spec: fill one interior run of missing dates with
`fill_value`, numbering the steps from `k`. -/
def fill_run (vs ve : Rat) (n : Nat) : Nat → List Date → List MReading
  | _, [] => []
  | k, dt :: rest => ⟨dt, some (fill_value vs ve n k)⟩ :: fill_run vs ve n (k + 1) rest

/-- Modelled from the spec: walk the sorted, lead-trimmed history with
the last valid value `vs` and the dates of the pending missing run; a
valid reading closes the run and is emitted after its interpolated
fill; a trailing run of missing readings is dropped (trim). -/
def fill_loop (vs : Rat) (pending : List Date) : List MReading → List MReading
  | [] => []
  | x :: xs =>
    match x.value with
    | Option.none => fill_loop vs (pending ++ [x.date]) xs
    | some ve =>
      fill_run vs ve pending.length 1 pending ++ ⟨x.date, some ve⟩ :: fill_loop ve [] xs

/-- Modelled from the spec: sort, trim leading missing readings, then
fill interior gaps (trailing missing readings are dropped by
`fill_loop`); an all-missing history becomes empty. -/
def interpolate_history (l : List MReading) : List MReading :=
  match (msort l).dropWhile (fun x => x.value.isNone) with
  | [] => []
  | x :: xs =>
    match x.value with
    | some v => ⟨x.date, some v⟩ :: fill_loop v [] xs
    | Option.none => []

/-- Modelled from the spec: the device shape used by the interpolator
and its tests — serial number, optional location, variant tag and a
history of possibly-missing readings. -/
structure MDevice where
  serial_number : String
  location : Option String
  variant : DeviceVariant
  history : List MReading
deriving DecidableEq, Repr

/-- Modelled from the spec: `VirtualApi._interpolate_and_trim_device_reading`
(absent from the source files) — return a device with the same serial
number and variant, the location with `None` replaced by the empty
string, and the gap-free interpolated history. -/
def interpolate_and_trim_device_reading (d : MDevice) : MDevice :=
  ⟨d.serial_number, some (d.location.getD ""), d.variant, interpolate_history d.history⟩

/-- Strictly ascending dates, the well-formed shape of a history whose
timestamps are distinct. -/
def strictly_dated (l : List MReading) : Prop :=
  l.Pairwise (fun a b => a.date.key < b.date.key)

instance (l : List MReading) : Decidable (strictly_dated l) :=
  List.instDecidablePairwise l

/-! ### Ordered-insertion lemmas -/

theorem insort_mem (l : List Reading) (r b : Reading) (hb : b ∈ insort l r) :
    b = r ∨ b ∈ l := by
  induction l with
  | nil => simpa [insort] using hb
  | cons x xs ih =>
    simp only [insort] at hb
    by_cases hlt : r.date.key < x.date.key
    · rw [if_pos hlt] at hb
      rcases List.mem_cons.mp hb with rfl | hb
      · exact Or.inl rfl
      · exact Or.inr hb
    · rw [if_neg hlt] at hb
      rcases List.mem_cons.mp hb with rfl | hb
      · exact Or.inr (List.mem_cons_self _ _)
      · rcases ih hb with rfl | hb
        · exact Or.inl rfl
        · exact Or.inr (List.mem_cons_of_mem _ hb)

theorem insort_sorted (l : List Reading) (r : Reading) (h : sorted_by_date l) :
    sorted_by_date (insort l r) := by
  induction l with
  | nil => simp [insort, sorted_by_date]
  | cons x xs ih =>
    simp only [insort]
    rcases h with - | ⟨hx, hxs⟩
    by_cases hlt : r.date.key < x.date.key
    · simp only [if_pos hlt]
      refine List.Pairwise.cons ?_ (List.Pairwise.cons hx hxs)
      intro b hb
      rcases List.mem_cons.mp hb with rfl | hb
      · exact le_of_lt hlt
      · exact le_trans (le_of_lt hlt) (hx b hb)
    · simp only [if_neg hlt]
      refine List.Pairwise.cons ?_ (ih hxs)
      intro b hb
      rcases insort_mem xs r b hb with rfl | hb
      · exact le_of_not_lt hlt
      · exact hx b hb

theorem insort_perm (l : List Reading) (r : Reading) :
    List.Perm (insort l r) (r :: l) := by
  induction l with
  | nil => simp [insort]
  | cons x xs ih =>
    simp only [insort]
    by_cases hlt : r.date.key < x.date.key
    · rw [if_pos hlt]
    · rw [if_neg hlt]
      exact (List.Perm.cons x ih).trans (List.Perm.swap r x xs)

theorem add_reading_sorted (d : Device) (r : Reading) (d2 : Device)
    (h : sorted_by_date d.history) (hok : add_reading d r = .ok d2) :
    sorted_by_date d2.history := by
  unfold add_reading at hok
  by_cases hneg : r.value < 0
  · simp [hneg] at hok
  · simp only [if_neg hneg] at hok
    by_cases hemp : d.history.isEmpty
    · simp only [hemp, if_pos] at hok
      cases hok
      simp [sorted_by_date]
    · simp only [hemp, Bool.false_eq_true, if_false, Except.ok.injEq] at hok
      cases hok
      exact insort_sorted d.history r h

/-- C8.  For every device whose history is sorted ascending by timestamp
(in particular any freshly constructed device) and every finite sequence
of `add_reading` / `add_reading_value` calls, in any insertion order, the
history is again sorted ascending by timestamp after the calls; since
every prefix of a call sequence is itself a call sequence, the history is
sorted after each individual call. -/
theorem c8_history_sorted_after_calls (d : Device) (calls : List DevCall)
    (h : sorted_by_date d.history) :
    ∀ d2, apply_calls d calls = .ok d2 → sorted_by_date d2.history := by
  induction calls generalizing d with
  | nil =>
    intro d2 hok
    simp only [apply_calls] at hok
    cases hok
    exact h
  | cons c cs ih =>
    intro d2 hok
    simp only [apply_calls] at hok
    cases hc : apply_call d c with
    | error e => rw [hc] at hok; cases hok
    | ok dmid =>
      rw [hc] at hok
      refine ih dmid ?_ d2 hok
      cases c with
      | callAddReading r => exact add_reading_sorted d r dmid h hc
      | callAddReadingValue v dt =>
        simp only [apply_call, add_reading_value] at hc
        cases hmk : mk_reading dt v with
        | error e => rw [hmk] at hc; cases hc
        | ok r =>
          rw [hmk] at hc
          exact add_reading_sorted d r dmid h hc

/-- Witness for C8 at a concrete input: out-of-order insertions into a
fresh device leave the history sorted. -/
theorem c8_history_sorted_after_calls_witness :
    sorted_by_date (Device.mk (.str "12345") (.str "Kitchen") .generic []).history ∧
    ∀ d2,
      apply_calls (Device.mk (.str "12345") (.str "Kitchen") .generic [])
        [.callAddReadingValue 100 ⟨2025, 1, 2⟩,
         .callAddReadingValue 50 ⟨2025, 1, 1⟩,
         .callAddReading ⟨⟨2025, 1, 3⟩, 150⟩] = .ok d2 →
      sorted_by_date d2.history :=
  ⟨by decide,
   c8_history_sorted_after_calls
     (Device.mk (.str "12345") (.str "Kitchen") .generic [])
     [.callAddReadingValue 100 ⟨2025, 1, 2⟩,
      .callAddReadingValue 50 ⟨2025, 1, 1⟩,
      .callAddReading ⟨⟨2025, 1, 3⟩, 150⟩]
     (by decide)⟩

/-- C10.  `last_consumption` yields `None` exactly when the history holds
fewer than two readings, and when it holds at least two with the most
recent value strictly below the previous one, the `Reading` constructed
from the negative difference raises `ValueError`. -/
theorem c10_last_consumption (d : Device) :
    (last_consumption d = .noData ↔ d.history.length < 2) ∧
    (∀ last previous rest, d.history.reverse = last :: previous :: rest →
      last.value < previous.value →
      last_consumption d = .raised .valueError) := by
  constructor
  · cases hrev : d.history.reverse with
    | nil =>
      have hl : d.history.length = 0 := by
        simpa using congrArg List.length hrev
      simp [last_consumption, hrev, hl]
    | cons a tl =>
      cases tl with
      | nil =>
        have hl : d.history.length = 1 := by
          simpa using congrArg List.length hrev
        simp [last_consumption, hrev, hl]
      | cons b tl2 =>
        have hl : d.history.length = tl2.length + 2 := by
          simpa using congrArg List.length hrev
        constructor
        · intro hcontra
          exfalso
          cases hmk : mk_reading a.date (a.value - b.value) with
          | error e => simp [last_consumption, hrev, hmk] at hcontra
          | ok r => simp [last_consumption, hrev, hmk] at hcontra
        · intro hlt
          exfalso
          omega
  · intro last previous rest hrev hlt
    have hneg : last.value - previous.value < 0 := by linarith
    simp [last_consumption, hrev, mk_reading, hneg]

/-- Witness for C10 at a concrete input: a meter reset (40 after 100)
raises `ValueError`, and a one-reading history yields `None`. -/
theorem c10_last_consumption_witness :
    last_consumption
      (Device.mk (.str "1") (.str "") .generic
        [⟨⟨2025, 1, 1⟩, 100⟩, ⟨⟨2025, 1, 2⟩, 40⟩]) = .raised .valueError ∧
    (last_consumption (Device.mk (.str "1") (.str "") .generic [⟨⟨2025, 1, 1⟩, 100⟩]) =
        .noData ↔
      (Device.mk (.str "1") (.str "") .generic [⟨⟨2025, 1, 1⟩, 100⟩]).history.length < 2) :=
  ⟨(c10_last_consumption
      (Device.mk (.str "1") (.str "") .generic
        [⟨⟨2025, 1, 1⟩, 100⟩, ⟨⟨2025, 1, 2⟩, 40⟩])).2
      ⟨⟨2025, 1, 2⟩, 40⟩ ⟨⟨2025, 1, 1⟩, 100⟩ [] (by decide) (by decide),
   (c10_last_consumption
      (Device.mk (.str "1") (.str "") .generic [⟨⟨2025, 1, 1⟩, 100⟩])).1⟩

/-- C1.  Evaluation of the embedded `_add_device_readings` at the
claim's own scenario: headers 15/01, 01/01, 15/12 with reference year
2024.  The code assigns 01/01 the year 2023 (the sorted history is
01/01/2023, 15/12/2023, 15/01/2024), not 2024 as the claim states:
since the month comparison falls back to month 0 when there is no
previous header, `in_previous_year` becomes true immediately after the
first header, so every later header gets `reference_year - 1`. -/
theorem c1_year_assignment_divergence :
    (add_device_readings 2024
        (Device.mk (.str "12345") (.str "loc") .heating [])
        [("15/01", .num 1), ("01/01", .num 2), ("15/12", .num 3)]).history.map Reading.date =
      [⟨2023, 1, 1⟩, ⟨2023, 12, 15⟩, ⟨2024, 1, 15⟩] ∧
    (⟨2023, 1, 1⟩ : Date) ≠ ⟨2024, 1, 1⟩ := by
  decide

/-- C6, counterexample.  A blank cell is recorded as the value 0.0 for
its date (not as an explicit missing reading), and a non-numeric cell is
dropped from the history (not recorded as missing). -/
theorem c6_counterexample :
    (add_device_readings 2024
        (Device.mk (.str "1") (.str "") .heating [])
        [("15/01", .str "")]).history = [⟨⟨2024, 1, 15⟩, 0⟩] ∧
    (add_device_readings 2024
        (Device.mk (.str "1") (.str "") .heating [])
        [("15/01", .str "abc")]).history = [] := by
  decide

/-- C6, amended.  For a cell under a valid date header: a falsy
(blank/zero) cell is recorded as the value 0.0 at that date; a
non-numeric string cell fails float conversion and is dropped, leaving
the history unchanged; numeric strings accept either `.` or `,` as the
decimal separator (both "10,5" and "10.5" coerce to 21/2). -/
theorem c6_value_coercion (cy : Int) (dev : Device) (key : String) (cell : CellValue)
    (d m : Nat) (hk : parse_dm key = some (d, m)) (hv : valid_date cy m d = true) :
    (cell.falsy = true →
      (add_device_readings cy dev [(key, cell)]).history =
        (if dev.history.isEmpty then [⟨⟨cy, m, d⟩, 0⟩]
         else insort dev.history ⟨⟨cy, m, d⟩, 0⟩)) ∧
    (∀ s, cell = .str s → cell.falsy = false →
      parse_float (py_replace_comma s) = Option.none →
      (add_device_readings cy dev [(key, cell)]).history = dev.history) ∧
    parse_float (py_replace_comma "10,5") = some (mkRat 21 2) ∧
    parse_float (py_replace_comma "10.5") = some (mkRat 21 2) := by
  refine ⟨?_, ?_, by decide, by decide⟩
  · intro hfalsy
    simp [add_device_readings, add_readings_loop, hk, parse_reading_date, hv,
      convert_cell, hfalsy]
  · intro s hs hfalsy hfail
    subst hs
    simp [add_device_readings, add_readings_loop, hk, parse_reading_date, hv,
      convert_cell, hfalsy, hfail]

/-- Witness for C6's amended theorem at a concrete input: header 15/01
of year 2024, blank cell recorded as 0.0 and cell "abc" dropped. -/
theorem c6_value_coercion_witness :
    parse_dm "15/01" = some (15, 1) ∧ valid_date 2024 1 15 = true ∧
    (add_device_readings 2024 (Device.mk (.str "7") (.str "") .coldWater [])
        [("15/01", .str "")]).history = [⟨⟨2024, 1, 15⟩, 0⟩] ∧
    (add_device_readings 2024 (Device.mk (.str "7") (.str "") .coldWater [])
        [("15/01", .str "abc")]).history =
      (Device.mk (.str "7") (.str "") .coldWater []).history := by
  refine ⟨by decide, by decide, ?_, ?_⟩
  · have h := (c6_value_coercion 2024 (Device.mk (.str "7") (.str "") .coldWater [])
      "15/01" (.str "") 15 1 (by decide) (by decide)).1 (by decide)
    simpa using h
  · exact ((c6_value_coercion 2024 (Device.mk (.str "7") (.str "") .coldWater [])
      "15/01" (.str "abc") 15 1 (by decide) (by decide)).2.1 "abc" rfl (by decide)
      (by decide))

theorem fill_cells_fst (l : List (String × CellValue)) :
    (fill_cells l).1 = prev_after l := by
  induction l with
  | nil => rfl
  | cons p rest ih =>
    obtain ⟨h, v⟩ := p
    simp only [fill_cells, prev_after, ih]
    split_ifs <;> rfl

theorem fill_cells_length (l : List (String × CellValue)) :
    (fill_cells l).2.length = l.length := by
  induction l with
  | nil => rfl
  | cons p rest ih =>
    obtain ⟨h, v⟩ := p
    simp only [fill_cells]
    split_ifs <;> simp [ih]

theorem fill_cells_get (row : List (String × CellValue)) :
    ∀ i h v, row.get? i = some (h, v) →
      (fill_cells row).2.get? i = some (h, fill_step h v (prev_after (row.drop (i + 1)))) := by
  induction row with
  | nil => intro i h v hget; simp at hget
  | cons p rest ih =>
    obtain ⟨h0, v0⟩ := p
    intro i h v hget
    cases i with
    | zero =>
      simp only [List.get?] at hget
      obtain ⟨rfl, rfl⟩ : h0 = h ∧ v0 = v := by
        cases hget
        exact ⟨rfl, rfl⟩
      simp only [fill_cells, fill_step, fill_cells_fst, List.drop_succ_cons, List.drop_zero]
      split_ifs <;> rfl
    | succ j =>
      have hget' : rest.get? j = some (h, v) := by simpa using hget
      have hres := ih j h v hget'
      simp only [fill_cells, List.drop_succ_cons]
      split_ifs <;> simpa using hres

theorem prev_after_first_available (l : List (String × CellValue)) :
    (prev_after l).falsy = false → first_available l = some (prev_after l) := by
  induction l with
  | nil => intro hcontra; simp [prev_after, CellValue.falsy] at hcontra
  | cons p rest ih =>
    obtain ⟨h0, v0⟩ := p
    intro hfalsy
    simp only [prev_after] at hfalsy ⊢
    simp only [first_available]
    by_cases hm : h0 ∈ METADATA_COLUMNS
    · rw [if_pos hm] at hfalsy
      rw [if_pos hm, if_pos (Or.inl hm)]
      exact ih hfalsy
    · rw [if_neg hm] at hfalsy
      rw [if_neg hm]
      by_cases hv : v0.falsy = true
      · by_cases hp : (prev_after rest).falsy = false
        · rw [if_pos (show v0.falsy = true ∧ (prev_after rest).falsy = false from
            ⟨hv, hp⟩)] at hfalsy
          rw [if_pos (show h0 ∈ METADATA_COLUMNS ∨ v0.falsy = true from Or.inr hv),
            if_pos (show v0.falsy = true ∧ (prev_after rest).falsy = false from ⟨hv, hp⟩)]
          exact ih hfalsy
        · exfalso
          rw [if_neg (show ¬(v0.falsy = true ∧ (prev_after rest).falsy = false) from
            fun hc => hp hc.2)] at hfalsy
          exact absurd hfalsy (by simp [hv])
      · have hcond : ¬(v0.falsy = true ∧ (prev_after rest).falsy = false) :=
          fun hc => hv hc.1
        rw [if_neg hcond] at hfalsy ⊢
        rw [if_neg (show ¬(h0 ∈ METADATA_COLUMNS ∨ v0.falsy = true) from
          fun hc => hc.elim hm hv)]

/-- C4, counterexample.  With the date columns in the export's
most-recent-to-oldest order (29/12 newest, leftmost), the blank 28/12
cell is filled with the value 10 of the *older* column 27/12 to its
right, not with the more recent 29/12 value 30 as the claim states. -/
theorem c4_counterexample :
    (fill_cells [("29/12", .num 30), ("28/12", .str ""), ("27/12", .num 10)]).2 =
      [("29/12", .num 30), ("28/12", .num 10), ("27/12", .num 10)] ∧
    CellValue.num 10 ≠ CellValue.num 30 := by
  decide

/-- C4, amended.  The backfill scans each row from the last column to
the first (oldest to newest under the most-recent-first export order):
a cell's result is `fill_step` of its value and the carried
`previous_reading_value` from the columns to its right, so a
missing/blank cell is replaced by the *next older* available value
(values propagate forward in time, from older readings to newer ones);
when the carry is truthy it is exactly the first truthy non-metadata
value to the right; metadata columns are never filled with a reading
value (a blank metadata cell is set to the empty string, as `fill_step`
shows). -/
theorem c4_backfill_direction (row : List (String × CellValue)) :
    (fill_cells row).2.length = row.length ∧
    (∀ i h v, row.get? i = some (h, v) →
      (fill_cells row).2.get? i = some (h, fill_step h v (prev_after (row.drop (i + 1))))) ∧
    ((prev_after row).falsy = false → first_available row = some (prev_after row)) :=
  ⟨fill_cells_length row, fill_cells_get row, prev_after_first_available row⟩

/-- Witness for C4's amended theorem at the counterexample row: the
blank 28/12 cell receives the carry from the columns right of it, and
that carry is the first available value there. -/
theorem c4_backfill_direction_witness :
    (fill_cells [("29/12", .num 30), ("28/12", .str ""), ("27/12", .num 10)]).2.get? 1 =
      some ("28/12",
        fill_step "28/12" (.str "")
          (prev_after ([("29/12", CellValue.num 30), ("28/12", .str ""),
            ("27/12", .num 10)].drop 2))) ∧
    first_available [("29/12", CellValue.num 30), ("28/12", .str ""), ("27/12", .num 10)] =
      some (prev_after [("29/12", CellValue.num 30), ("28/12", .str ""), ("27/12", .num 10)]) :=
  ⟨(c4_backfill_direction
      [("29/12", .num 30), ("28/12", .str ""), ("27/12", .num 10)]).2.1 1 "28/12" (.str "")
      (by decide),
   (c4_backfill_direction
      [("29/12", .num 30), ("28/12", .str ""), ("27/12", .num 10)]).2.2 (by decide)⟩

theorem alist_lookup_set {κ α : Type} [DecidableEq κ] (l : List (κ × α)) (k k2 : κ) (v : α) :
    alist_lookup (alist_set l k v) k2 = if k2 = k then some v else alist_lookup l k2 := by
  induction l with
  | nil => by_cases h : k2 = k <;> simp [alist_set, alist_lookup, h]
  | cons p rest ih =>
    obtain ⟨k3, v3⟩ := p
    by_cases hk : k = k3
    · subst hk
      by_cases h2 : k2 = k <;> simp [alist_set, alist_lookup, h2]
    · simp only [alist_set, if_neg hk, alist_lookup]
      by_cases h2 : k2 = k3
      · subst h2
        have : ¬k2 = k := fun hc => hk hc.symm
        simp [this]
      · simp [h2, ih]

theorem alist_set_keys_mem {κ α : Type} [DecidableEq κ] (l : List (κ × α)) (k a : κ) (v : α)
    (ha : a ∈ (alist_set l k v).map Prod.fst) : a = k ∨ a ∈ l.map Prod.fst := by
  induction l with
  | nil => simpa [alist_set] using ha
  | cons p rest ih =>
    obtain ⟨k3, v3⟩ := p
    by_cases hk : k = k3
    · subst hk
      rcases (by simpa [alist_set] using ha : a = k ∨ a ∈ rest.map Prod.fst) with h | h
      · exact Or.inl h
      · exact Or.inr (by simp [h])
    · rcases (by simpa [alist_set, hk] using ha : a = k3 ∨ a ∈ (alist_set rest k v).map Prod.fst)
        with h | h
      · exact Or.inr (by simp [h])
      · rcases ih h with h2 | h2
        · exact Or.inl h2
        · exact Or.inr (by simp [h2])

theorem alist_set_keys_nodup {κ α : Type} [DecidableEq κ] (l : List (κ × α)) (k : κ) (v : α)
    (h : (l.map Prod.fst).Nodup) : ((alist_set l k v).map Prod.fst).Nodup := by
  induction l with
  | nil => simp [alist_set]
  | cons p rest ih =>
    obtain ⟨k3, v3⟩ := p
    simp only [List.map_cons, List.nodup_cons] at h
    obtain ⟨hk3, hrest⟩ := h
    by_cases hk : k = k3
    · subst hk
      have hset : alist_set ((k, v3) :: rest) k v = (k, v) :: rest := by
        simp [alist_set]
      rw [hset]
      simp only [List.map_cons, List.nodup_cons]
      exact ⟨hk3, hrest⟩
    · simp only [alist_set, if_neg hk, List.map_cons, List.nodup_cons]
      refine ⟨?_, ih hrest⟩
      intro hc
      rcases alist_set_keys_mem rest k k3 v hc with h2 | h2
      · exact hk h2.symm
      · exact hk3 h2

theorem gdhr_nodup (cy : Int) (rows : List (List (String × CellValue))) :
    ∀ acc m, (acc.map Prod.fst).Nodup →
      get_devices_history_rows cy acc rows = .ok m → (m.map Prod.fst).Nodup := by
  induction rows with
  | nil =>
    intro acc m hnd hok
    simp only [get_devices_history_rows] at hok
    cases hok
    exact hnd
  | cons row rest ih =>
    intro acc m hnd hok
    simp only [get_devices_history_rows] at hok
    cases hp : process_device_row cy row with
    | error e => rw [hp] at hok; cases hok
    | ok od =>
      rw [hp] at hok
      cases od with
      | none => exact ih acc m hnd hok
      | some dev =>
        exact ih _ m (alist_set_keys_nodup acc dev.serial_number dev hnd) hok

theorem gdhr_lookup (cy : Int) (s : CellValue) (rows : List (List (String × CellValue))) :
    ∀ acc m, get_devices_history_rows cy acc rows = .ok m →
      alist_lookup m s = last_device_from cy s (alist_lookup acc s) rows := by
  induction rows with
  | nil =>
    intro acc m hok
    simp only [get_devices_history_rows] at hok
    cases hok
    rfl
  | cons row rest ih =>
    intro acc m hok
    simp only [get_devices_history_rows] at hok
    cases hp : process_device_row cy row with
    | error e => rw [hp] at hok; cases hok
    | ok od =>
      rw [hp] at hok
      cases od with
      | none => simpa [last_device_from, hp] using ih acc m hok
      | some dev =>
        have hrec := ih (alist_set acc dev.serial_number dev) m hok
        rw [alist_lookup_set] at hrec
        simp only [last_device_from, hp]
        by_cases hs : dev.serial_number = s
        · subst hs
          simpa using hrec
        · have : ¬s = dev.serial_number := fun hc => hs hc.symm
          rw [if_neg this] at hrec
          rw [if_neg hs]
          exact hrec

/-- C5, counterexample.  Two rows with serial "1": the output maps "1"
to a device built solely from the second row (hot water, location "B",
history containing only the 16/01 reading); the first row's 15/01
reading is not in the history, contradicting "readings from all such
rows". -/
theorem c5_counterexample :
    get_devices_history_rows 2024 []
      [[("tipo", .str "Radio agua fría"), ("n_serie", .str "1"), ("ubicacion", .str "A"),
        ("15/01", .num 10)],
       [("tipo", .str "Radio agua caliente"), ("n_serie", .str "1"), ("ubicacion", .str "B"),
        ("16/01", .num 20)]] =
      .ok [(.str "1", ⟨.str "1", .str "B", .hotWater, [⟨⟨2024, 1, 16⟩, 20⟩]⟩)] ∧
    ¬(⟨2024, 1, 15⟩ : Date) ∈ ([⟨⟨2024, 1, 16⟩, 20⟩] : List Reading).map Reading.date := by
  decide

/-- C5, amended.  The serial map has one entry per serial, and the
device stored for a serial is exactly the one built from the *last* row
with that serial that produced a device: both its identity and its
readings come from that row alone; earlier same-serial rows are
overwritten, their readings discarded. -/
theorem c5_last_row_wins (cy : Int) (rows : List (List (String × CellValue)))
    (m : List (CellValue × Device))
    (h : get_devices_history_rows cy [] rows = .ok m) :
    (m.map Prod.fst).Nodup ∧
    ∀ s, alist_lookup m s = last_device_from cy s Option.none rows :=
  ⟨gdhr_nodup cy rows [] m (by simp) h,
   fun s => by simpa [alist_lookup] using gdhr_lookup cy s rows [] m h⟩

/-- Witness for C5's amended theorem at the counterexample rows. -/
theorem c5_last_row_wins_witness :
    alist_lookup [((.str "1" : CellValue),
        (⟨.str "1", .str "B", .hotWater, [⟨⟨2024, 1, 16⟩, 20⟩]⟩ : Device))] (.str "1") =
      last_device_from 2024 (.str "1") Option.none
        [[("tipo", .str "Radio agua fría"), ("n_serie", .str "1"), ("ubicacion", .str "A"),
          ("15/01", .num 10)],
         [("tipo", .str "Radio agua caliente"), ("n_serie", .str "1"), ("ubicacion", .str "B"),
          ("16/01", .num 20)]] :=
  (c5_last_row_wins 2024
    [[("tipo", .str "Radio agua fría"), ("n_serie", .str "1"), ("ubicacion", .str "A"),
      ("15/01", .num 10)],
     [("tipo", .str "Radio agua caliente"), ("n_serie", .str "1"), ("ubicacion", .str "B"),
      ("16/01", .num 20)]]
    [(.str "1", ⟨.str "1", .str "B", .hotWater, [⟨⟨2024, 1, 16⟩, 20⟩]⟩)]
    (by decide)).2 (.str "1")

/-- C9.  Every parse outcome is either a device map or `ParserError`:
the `except Exception` catch-all in `get_devices_history` re-raises any
internal failure (empty file, xlrd error, `TypeError` from a numeric
type cell, `ValueError` from an empty serial) as `ParserError`; in
particular a sheet whose row has an empty serial number ends in
`ParserError`, not in a bare `ValueError`. -/
theorem c9_only_parser_error :
    (∀ (cy : Int) (file : ExcelFile),
      (∃ m, get_devices_history cy file = .ok m) ∨
        get_devices_history cy file = .error .parserError) ∧
    get_devices_history 2024
        (.sheet ["tipo", "n_serie", "ubicacion", "15/01"]
          [[.str "Radio agua fría", .str "", .str "loc", .num 5]]) =
      .error .parserError := by
  constructor
  · intro cy file
    unfold get_devices_history
    cases hinner : get_devices_history_inner cy file with
    | error e => right; simp [hinner]
    | ok m => left; exact ⟨m, by simp [hinner]⟩
  · decide

theorem alist_lookup_eq_none {κ α : Type} [DecidableEq κ] (l : List (κ × α)) (k : κ)
    (h : k ∉ l.map Prod.fst) : alist_lookup l k = Option.none := by
  induction l with
  | nil => rfl
  | cons p rest ih =>
    obtain ⟨k2, v⟩ := p
    simp only [List.map_cons, List.mem_cons] at h
    push_neg at h
    simp only [alist_lookup, if_neg h.1]
    exact ih h.2

theorem add_reading_spec (d : Device) (r : Reading) (h : 0 ≤ r.value) :
    ∃ d2, add_reading d r = .ok d2 ∧ d2.serial_number = d.serial_number ∧
      d2.location = d.location ∧ d2.variant = d.variant ∧
      List.Perm d2.history (r :: d.history) := by
  unfold add_reading
  rw [if_neg (not_lt.mpr h)]
  by_cases he : d.history.isEmpty
  · rw [if_pos he]
    have hnil : d.history = [] := by simpa using he
    exact ⟨_, rfl, rfl, rfl, rfl, by simp [hnil]⟩
  · rw [if_neg he]
    exact ⟨_, rfl, rfl, rfl, rfl, insort_perm d.history r⟩

theorem add_readings_list_spec (rs : List Reading) :
    ∀ d, (∀ r ∈ rs, 0 ≤ r.value) →
      ∃ d2, add_readings_list d rs = .ok d2 ∧ d2.serial_number = d.serial_number ∧
        d2.location = d.location ∧ d2.variant = d.variant ∧
        List.Perm d2.history (rs ++ d.history) := by
  induction rs with
  | nil => intro d _; exact ⟨d, rfl, rfl, rfl, rfl, by simp⟩
  | cons r rs ih =>
    intro d h
    obtain ⟨d1, hok1, hs1, hl1, hv1, hp1⟩ := add_reading_spec d r (h r (by simp))
    obtain ⟨d2, hok2, hs2, hl2, hv2, hp2⟩ := ih d1 (fun x hx => h x (by simp [hx]))
    refine ⟨d2, ?_, by rw [hs2, hs1], by rw [hl2, hl1], by rw [hv2, hv1], ?_⟩
    · simp only [add_readings_list, hok1]
      exact hok2
    · have t2 : (rs ++ d1.history).Perm (rs ++ (r :: d.history)) :=
        List.Perm.append_left rs hp1
      have t3 : (rs ++ (r :: d.history)).Perm (r :: (rs ++ d.history)) :=
        List.perm_middle
      exact (hp2.trans t2).trans t3

theorem first_device_append (s : CellValue) (l1 l2 : List (List (CellValue × Device))) :
    first_device s (l1 ++ l2) =
      match first_device s l1 with
      | some d => some d
      | Option.none => first_device s l2 := by
  induction l1 with
  | nil => simp [first_device]
  | cons dl t ih =>
    simp only [List.cons_append, first_device]
    cases hdl : alist_lookup dl s with
    | none => simpa using ih
    | some d => rfl

theorem first_device_single (s : CellValue) (dl : List (CellValue × Device)) :
    first_device s [dl] = alist_lookup dl s := by
  cases h : alist_lookup dl s <;> simp [first_device, h]

theorem histories_for_append (s : CellValue) (l1 l2 : List (List (CellValue × Device))) :
    histories_for s (l1 ++ l2) = histories_for s l1 ++ histories_for s l2 := by
  simp [histories_for]

theorem histories_for_single (s : CellValue) (dl : List (CellValue × Device)) :
    histories_for s [dl] =
      match alist_lookup dl s with
      | some d => d.history
      | Option.none => [] := by
  cases h : alist_lookup dl s <;> simp [histories_for, h]

theorem first_device_none_histories (s : CellValue)
    (l : List (List (CellValue × Device))) (h : first_device s l = Option.none) :
    histories_for s l = [] := by
  induction l with
  | nil => rfl
  | cons dl t ih =>
    simp only [first_device] at h
    cases hdl : alist_lookup dl s with
    | none =>
      rw [hdl] at h
      simp only [histories_for, List.map_cons, List.flatten, hdl]
      simpa [histories_for] using ih h
    | some d => rw [hdl] at h; cases h

theorem merge_one_spec (dl : List (CellValue × Device)) :
    ∀ acc, (dl.map Prod.fst).Nodup →
      (∀ p ∈ dl, ∀ r ∈ (Prod.snd p).history, 0 ≤ r.value) →
      ∃ acc2, merge_one acc dl = .ok acc2 ∧ ∀ s,
        (alist_lookup dl s = Option.none → alist_lookup acc2 s = alist_lookup acc s) ∧
        (∀ dev, alist_lookup dl s = some dev →
          (alist_lookup acc s = Option.none → alist_lookup acc2 s = some dev) ∧
          (∀ ex, alist_lookup acc s = some ex →
            ∃ d2, alist_lookup acc2 s = some d2 ∧ d2.serial_number = ex.serial_number ∧
              d2.location = ex.location ∧ d2.variant = ex.variant ∧
              List.Perm d2.history (dev.history ++ ex.history))) := by
  induction dl with
  | nil =>
    intro acc _ _
    refine ⟨acc, rfl, fun s => ⟨fun _ => rfl, fun dev hdev => ?_⟩⟩
    simp [alist_lookup] at hdev
  | cons p rest ih =>
    obtain ⟨s0, dev0⟩ := p
    intro acc hnodup hnn
    simp only [List.map_cons, List.nodup_cons] at hnodup
    obtain ⟨hs0, hrestnd⟩ := hnodup
    have hrest_lookup : alist_lookup rest s0 = Option.none := alist_lookup_eq_none rest s0 hs0
    have hnn_tail : ∀ p ∈ rest, ∀ r ∈ (Prod.snd p).history, 0 ≤ r.value :=
      fun p hp => hnn p (by simp [hp])
    cases hacc : alist_lookup acc s0 with
    | none =>
      obtain ⟨acc2, hok, hprop⟩ := ih (alist_set acc s0 dev0) hrestnd hnn_tail
      refine ⟨acc2, ?_, fun s => ?_⟩
      · simp only [merge_one, hacc]
        exact hok
      · by_cases hss : s = s0
        · subst hss
          constructor
          · intro hcontra
            simp [alist_lookup] at hcontra
          · intro dev hdev
            have hdev0 : dev = dev0 := by
              simp only [alist_lookup, if_pos rfl] at hdev
              exact (Option.some.injEq _ _ ▸ hdev).symm
            subst hdev0
            refine ⟨fun _ => ?_, fun ex hex => ?_⟩
            · rw [(hprop s).1 hrest_lookup, alist_lookup_set, if_pos rfl]
            · rw [hacc] at hex; cases hex
        · have hdl : alist_lookup ((s0, dev0) :: rest) s = alist_lookup rest s := by
            simp [alist_lookup, hss]
          have hset : alist_lookup (alist_set acc s0 dev0) s = alist_lookup acc s := by
            rw [alist_lookup_set, if_neg hss]
          constructor
          · intro hnone
            rw [hdl] at hnone
            rw [(hprop s).1 hnone, hset]
          · intro dev hdev
            rw [hdl] at hdev
            refine ⟨fun hnone => ?_, fun ex hex => ?_⟩
            · exact ((hprop s).2 dev hdev).1 (by rw [hset]; exact hnone)
            · exact ((hprop s).2 dev hdev).2 ex (by rw [hset]; exact hex)
    | some ex0 =>
      have hnn0 : ∀ r ∈ dev0.history, 0 ≤ r.value :=
        fun r hr => hnn (s0, dev0) (by simp) r hr
      obtain ⟨d2, hok2, hsid, hlid, hvid, hperm⟩ := add_readings_list_spec dev0.history ex0 hnn0
      obtain ⟨acc2, hok, hprop⟩ := ih (alist_set acc s0 d2) hrestnd hnn_tail
      refine ⟨acc2, ?_, fun s => ?_⟩
      · simp only [merge_one, hacc, hok2]
        exact hok
      · by_cases hss : s = s0
        · subst hss
          constructor
          · intro hcontra
            simp [alist_lookup] at hcontra
          · intro dev hdev
            have hdev0 : dev = dev0 := by
              simp only [alist_lookup, if_pos rfl] at hdev
              exact (Option.some.injEq _ _ ▸ hdev).symm
            subst hdev0
            refine ⟨fun hnone => ?_, fun ex hex => ?_⟩
            · rw [hacc] at hnone; cases hnone
            · have hexex : ex = ex0 := by
                rw [hacc] at hex
                exact (Option.some.injEq _ _ ▸ hex).symm
              subst hexex
              refine ⟨d2, ?_, hsid, hlid, hvid, hperm⟩
              rw [(hprop s).1 hrest_lookup, alist_lookup_set, if_pos rfl]
        · have hdl : alist_lookup ((s0, dev0) :: rest) s = alist_lookup rest s := by
            simp [alist_lookup, hss]
          have hset : alist_lookup (alist_set acc s0 d2) s = alist_lookup acc s := by
            rw [alist_lookup_set, if_neg hss]
          constructor
          · intro hnone
            rw [hdl] at hnone
            rw [(hprop s).1 hnone, hset]
          · intro dev hdev
            rw [hdl] at hdev
            refine ⟨fun hnone => ?_, fun ex hex => ?_⟩
            · exact ((hprop s).2 dev hdev).1 (by rw [hset]; exact hnone)
            · exact ((hprop s).2 dev hdev).2 ex (by rw [hset]; exact hex)

theorem merge_loop_spec (dls : List (List (CellValue × Device))) :
    ∀ acc done, merge_inv done acc →
      (∀ dl ∈ dls, ∀ p ∈ dl, ∀ r ∈ (Prod.snd p).history, 0 ≤ r.value) →
      (∀ dl ∈ dls, ((dl.map Prod.fst).Nodup : Prop)) →
      ∃ m, merge_loop acc dls = .ok m ∧ merge_inv (done ++ dls) m := by
  induction dls with
  | nil =>
    intro acc done hinv _ _
    exact ⟨acc, rfl, by simpa using hinv⟩
  | cons dl rest ih =>
    intro acc done hinv hnn hnd
    obtain ⟨acc2, hok1, hprop⟩ :=
      merge_one_spec dl acc (hnd dl (by simp)) (hnn dl (by simp))
    have hinv2 : merge_inv (done ++ [dl]) acc2 := by
      intro s
      cases hdl : alist_lookup dl s with
      | none =>
        have hfd : first_device s (done ++ [dl]) = first_device s done := by
          rw [first_device_append]
          cases hfd0 : first_device s done <;> simp [first_device_single, hdl]
        have hhist : histories_for s (done ++ [dl]) = histories_for s done := by
          rw [histories_for_append, histories_for_single, hdl]
          simp
        constructor
        · intro hnone
          rw [hfd] at hnone
          rw [(hprop s).1 hdl]
          exact (hinv s).1 hnone
        · intro d0 hd0
          rw [hfd] at hd0
          obtain ⟨d, hd, h1, h2, h3, h4⟩ := (hinv s).2 d0 hd0
          exact ⟨d, by rw [(hprop s).1 hdl]; exact hd, h1, h2, h3, by rw [hhist]; exact h4⟩
      | some dev =>
        cases hfd0 : first_device s done with
        | none =>
          have haccs : alist_lookup acc s = Option.none := (hinv s).1 hfd0
          have hfd : first_device s (done ++ [dl]) = some dev := by
            rw [first_device_append, hfd0]
            simp [first_device_single, hdl]
          have hhist : histories_for s (done ++ [dl]) = dev.history := by
            rw [histories_for_append, first_device_none_histories s done hfd0,
              histories_for_single, hdl]
            simp
          constructor
          · intro hnone
            rw [hfd] at hnone
            cases hnone
          · intro d0 hd0
            rw [hfd] at hd0
            have hd0eq : dev = d0 := by
              exact Option.some.injEq _ _ ▸ hd0
            subst hd0eq
            have hres := ((hprop s).2 dev hdl).1 haccs
            exact ⟨dev, hres, rfl, rfl, rfl, by rw [hhist]⟩
        | some d0' =>
          obtain ⟨d, hd, h1, h2, h3, h4⟩ := (hinv s).2 d0' hfd0
          obtain ⟨d2, hd2, g1, g2, g3, g4⟩ := ((hprop s).2 dev hdl).2 d hd
          have hfd : first_device s (done ++ [dl]) = some d0' := by
            rw [first_device_append, hfd0]
          have hhist : histories_for s (done ++ [dl]) =
              histories_for s done ++ dev.history := by
            rw [histories_for_append, histories_for_single, hdl]
          constructor
          · intro hnone
            rw [hfd] at hnone
            cases hnone
          · intro d0 hd0
            rw [hfd] at hd0
            have hd0eq : d0' = d0 := Option.some.injEq _ _ ▸ hd0
            subst hd0eq
            refine ⟨d2, hd2, by rw [g1, h1], by rw [g2, h2], by rw [g3, h3], ?_⟩
            rw [hhist]
            have t2 : (dev.history ++ d.history).Perm
                (dev.history ++ histories_for s done) :=
              List.Perm.append_left _ h4
            have t3 : (dev.history ++ histories_for s done).Perm
                (histories_for s done ++ dev.history) :=
              List.perm_append_comm
            exact (g4.trans t2).trans t3
    obtain ⟨m, hok2, hinvf⟩ :=
      ih acc2 (done ++ [dl]) hinv2 (fun x hx => hnn x (by simp [hx]))
        (fun x hx => hnd x (by simp [hx]))
    refine ⟨m, ?_, ?_⟩
    · simp only [merge_loop, hok1]
      exact hok2
    · have : done ++ [dl] ++ rest = done ++ dl :: rest := by simp
      rw [this] at hinvf
      exact hinvf

/-- C7.  For every list of device maps in fetch order whose readings
are non-negative (the `Reading` invariant) and whose maps have distinct
serial keys (they are Python dicts), the merge succeeds and, for each
serial, the kept device carries the first-seen serial/variant/location
unchanged, while its history is a permutation of the concatenation of
every window's readings for that serial — every reading from later maps
is appended, with nothing deduplicated by timestamp. -/
theorem c7_merge_first_seen (dls : List (List (CellValue × Device)))
    (h1 : all_histories_nonneg dls) (h2 : all_keys_nodup dls) :
    ∃ m, merge_device_histories dls = .ok m ∧ ∀ s,
      (first_device s dls = Option.none → alist_lookup m s = Option.none) ∧
      (∀ d0, first_device s dls = some d0 →
        ∃ d, alist_lookup m s = some d ∧ d.serial_number = d0.serial_number ∧
          d.location = d0.location ∧ d.variant = d0.variant ∧
          List.Perm d.history (histories_for s dls)) := by
  have hbase : merge_inv [] [] := by
    intro s
    refine ⟨fun _ => rfl, fun d0 hd0 => ?_⟩
    simp [first_device] at hd0
  obtain ⟨m, hok, hinv⟩ := merge_loop_spec dls [] [] hbase h1 h2
  refine ⟨m, hok, fun s => ?_⟩
  have := hinv s
  simpa using this

/-- Witness for C7 at a concrete input: serial "A" appears in two
windows; the merged device keeps the first window's identity (heating,
location "L1") and holds both readings. -/
theorem c7_merge_first_seen_witness :
    ∃ m,
      merge_device_histories
          [[((.str "A" : CellValue),
             (⟨.str "A", .str "L1", .heating, [⟨⟨2025, 1, 1⟩, 100⟩]⟩ : Device))],
           [((.str "A" : CellValue),
             (⟨.str "A", .str "L2", .coldWater, [⟨⟨2025, 2, 1⟩, 150⟩]⟩ : Device))]] =
        .ok m ∧
      ∃ d, alist_lookup m (.str "A") = some d ∧ d.serial_number = .str "A" ∧
        d.location = .str "L1" ∧ d.variant = .heating ∧
        List.Perm d.history [⟨⟨2025, 1, 1⟩, 100⟩, ⟨⟨2025, 2, 1⟩, 150⟩] := by
  obtain ⟨m, hok, hprop⟩ :=
    c7_merge_first_seen
      [[((.str "A" : CellValue),
         (⟨.str "A", .str "L1", .heating, [⟨⟨2025, 1, 1⟩, 100⟩]⟩ : Device))],
       [((.str "A" : CellValue),
         (⟨.str "A", .str "L2", .coldWater, [⟨⟨2025, 2, 1⟩, 150⟩]⟩ : Device))]]
      (by decide) (by decide)
  obtain ⟨d, hd, hs, hl, hv, hperm⟩ :=
    (hprop (.str "A")).2 ⟨.str "A", .str "L1", .heating, [⟨⟨2025, 1, 1⟩, 100⟩]⟩ (by decide)
  refine ⟨m, hok, d, hd, by rw [hs], by rw [hl], by rw [hv], ?_⟩
  have hh : histories_for (.str "A")
      [[((.str "A" : CellValue),
         (⟨.str "A", .str "L1", .heating, [⟨⟨2025, 1, 1⟩, 100⟩]⟩ : Device))],
       [((.str "A" : CellValue),
         (⟨.str "A", .str "L2", .coldWater, [⟨⟨2025, 2, 1⟩, 150⟩]⟩ : Device))]] =
      [⟨⟨2025, 1, 1⟩, 100⟩, ⟨⟨2025, 2, 1⟩, 150⟩] := by decide
  rw [hh] at hperm
  exact hperm

theorem minsort_front (r : MReading) (l : List MReading)
    (h : ∀ x ∈ l, r.date.key < x.date.key) : minsort l r = r :: l := by
  cases l with
  | nil => rfl
  | cons x xs => simp [minsort, h x (by simp)]

theorem msort_sorted_id (l : List MReading) (h : strictly_dated l) : msort l = l := by
  induction l with
  | nil => rfl
  | cons x xs ih =>
    rcases h with - | ⟨hx, hxs⟩
    simp only [msort, ih hxs]
    exact minsort_front x xs hx

theorem fill_run_length (vs ve : Rat) (n : Nat) :
    ∀ (dates : List Date) (k : Nat), (fill_run vs ve n k dates).length = dates.length := by
  intro dates
  induction dates with
  | nil => intro k; rfl
  | cons dt rest ih => intro k; simp [fill_run, ih]

theorem fill_run_get (vs ve : Rat) (n : Nat) :
    ∀ (dates : List Date) (k i : Nat),
      (fill_run vs ve n k dates).get? i =
        (dates.get? i).map
          (fun dt => (⟨dt, some (fill_value vs ve n (k + i))⟩ : MReading)) := by
  intro dates
  induction dates with
  | nil => intro k i; simp [fill_run]
  | cons dt rest ih =>
    intro k i
    cases i with
    | zero => simp [fill_run]
    | succ j =>
      simp only [fill_run, List.get?_cons_succ]
      have hk : k + 1 + j = k + (j + 1) := by omega
      rw [ih (k + 1) j, hk]

theorem fill_loop_gap (vs ve : Rat) (xe : MReading) (rest : List MReading)
    (hxe : xe.value = some ve) :
    ∀ (gap : List MReading) (pending : List Date), (∀ x ∈ gap, x.value = Option.none) →
      fill_loop vs pending (gap ++ xe :: rest) =
        fill_run vs ve (pending.length + gap.length) 1 (pending ++ gap.map MReading.date) ++
          ⟨xe.date, some ve⟩ :: fill_loop ve [] rest := by
  intro gap
  induction gap with
  | nil =>
    intro pending _
    simp only [List.nil_append, fill_loop, hxe]
    simp
  | cons g gap ih =>
    intro pending hmiss
    have hg : g.value = Option.none := hmiss g (by simp)
    simp only [List.cons_append, fill_loop, hg]
    simp only [List.append_eq]
    rw [ih (pending ++ [g.date]) (fun x hx => hmiss x (by simp [hx]))]
    have h1 : (pending ++ [g.date]).length + gap.length =
        pending.length + (gap.length + 1) := by
      simp only [List.length_append, List.length_cons, List.length_nil]
      omega
    have h2 : (pending ++ [g.date]) ++ gap.map MReading.date =
        pending ++ (g.date :: gap.map MReading.date) := by simp
    rw [h1, h2]
    rfl

theorem dropWhile_head_false {α : Type} (f : α → Bool) (l : List α) (y : α) (ys : List α)
    (h : l.dropWhile f = y :: ys) : f y = false := by
  induction l with
  | nil => cases h
  | cons a t ih =>
    rw [List.dropWhile_cons] at h
    by_cases ha : f a = true
    · rw [if_pos ha] at h
      exact ih h
    · rw [if_neg ha] at h
      cases h
      simpa using ha

theorem dropWhile_append_head_some (x0 : MReading) (vs : Rat) (T : List MReading)
    (hx0 : x0.value = some vs) :
    ∀ pre : List MReading,
      (pre ++ x0 :: T).dropWhile (fun x => x.value.isNone) =
        pre.dropWhile (fun x => x.value.isNone) ++ x0 :: T := by
  intro pre
  induction pre with
  | nil => simp [List.dropWhile_cons, hx0]
  | cons p t ih =>
    simp only [List.cons_append, List.dropWhile_cons]
    by_cases hp : (p.value.isNone : Bool) = true
    · rw [if_pos hp, if_pos hp, ih]
    · rw [if_neg hp, if_neg hp]
      rfl

theorem fill_loop_run (x0 : MReading) (vs ve : Rat) (gap : List MReading) (xe : MReading)
    (rest : List MReading) (hx0 : x0.value = some vs) (hxe : xe.value = some ve)
    (hgap : ∀ x ∈ gap, x.value = Option.none) :
    ∀ (pre : List MReading) (vs0 : Rat) (pending : List Date),
      ∃ out_pre,
        fill_loop vs0 pending (pre ++ x0 :: (gap ++ xe :: rest)) =
          out_pre ++ ⟨x0.date, some vs⟩ ::
            (fill_run vs ve gap.length 1 (gap.map MReading.date) ++
              ⟨xe.date, some ve⟩ :: fill_loop ve [] rest) := by
  intro pre
  induction pre with
  | nil =>
    intro vs0 pending
    refine ⟨fill_run vs0 vs pending.length 1 pending, ?_⟩
    simp only [List.nil_append, fill_loop, hx0]
    rw [fill_loop_gap vs ve xe rest hxe gap [] hgap]
    simp
  | cons p t ih =>
    intro vs0 pending
    cases hp : p.value with
    | none =>
      obtain ⟨out_pre, hout⟩ := ih vs0 (pending ++ [p.date])
      refine ⟨out_pre, ?_⟩
      simp only [List.cons_append, fill_loop, hp]
      exact hout
    | some vp =>
      obtain ⟨out_pre, hout⟩ := ih vp []
      refine ⟨fill_run vs0 vp pending.length 1 pending ++ ⟨p.date, some vp⟩ :: out_pre, ?_⟩
      simp only [List.cons_append, fill_loop, hp]
      simp only [List.append_eq]
      rw [hout]
      simp

theorem interpolate_history_run (pre : List MReading) (x0 : MReading) (vs : Rat)
    (gap : List MReading) (xe : MReading) (ve : Rat) (rest : List MReading)
    (hx0 : x0.value = some vs) (hxe : xe.value = some ve)
    (hgap : ∀ x ∈ gap, x.value = Option.none)
    (hsorted : strictly_dated (pre ++ x0 :: (gap ++ xe :: rest))) :
    ∃ out_pre,
      interpolate_history (pre ++ x0 :: (gap ++ xe :: rest)) =
        out_pre ++ ⟨x0.date, some vs⟩ ::
          (fill_run vs ve gap.length 1 (gap.map MReading.date) ++
            ⟨xe.date, some ve⟩ :: fill_loop ve [] rest) := by
  unfold interpolate_history
  rw [msort_sorted_id _ hsorted]
  rw [dropWhile_append_head_some x0 vs (gap ++ xe :: rest) hx0 pre]
  cases hdrop : pre.dropWhile (fun x => x.value.isNone) with
  | nil =>
    refine ⟨[], ?_⟩
    simp only [List.nil_append, hx0]
    rw [fill_loop_gap vs ve xe rest hxe gap [] hgap]
    simp
  | cons y ys =>
    have hyf : (fun x : MReading => x.value.isNone) y = false :=
      dropWhile_head_false _ pre y ys hdrop
    have hy : ∃ vy, y.value = some vy := by
      cases hv : y.value with
      | none => simp [hv] at hyf
      | some vy => exact ⟨vy, rfl⟩
    obtain ⟨vy, hvy⟩ := hy
    simp only [List.cons_append, hvy]
    obtain ⟨out_pre, hout⟩ := fill_loop_run x0 vs ve gap xe rest hx0 hxe hgap ys vy []
    refine ⟨⟨y.date, some vy⟩ :: out_pre, ?_⟩
    rw [hout]
    simp

/-- C2.  Meter reset across a gap (spec-modelled interpolator): for
*every* interior run of missing readings in the history — the run may
be preceded by any prefix of earlier readings and earlier gaps —
bounded by a valid `v_start` and a later valid `v_end` with
`v_end < v_start`, every interpolated value inside the gap is exactly 0
(never negative or linearly decreasing), and the boundary readings keep
their values `v_start` and `v_end`. -/
theorem c2_reset_gap (pre : List MReading) (x0 : MReading) (vs : Rat)
    (gap : List MReading) (xe : MReading) (ve : Rat) (rest : List MReading)
    (hx0 : x0.value = some vs) (hxe : xe.value = some ve)
    (hgap : ∀ x ∈ gap, x.value = Option.none)
    (hsorted : strictly_dated (pre ++ x0 :: (gap ++ xe :: rest)))
    (hlt : ve < vs) :
    ∃ out_pre,
      interpolate_history (pre ++ x0 :: (gap ++ xe :: rest)) =
        out_pre ++ ⟨x0.date, some vs⟩ ::
          (fill_run vs ve gap.length 1 (gap.map MReading.date) ++
            ⟨xe.date, some ve⟩ :: fill_loop ve [] rest) ∧
      (interpolate_history (pre ++ x0 :: (gap ++ xe :: rest))).get? out_pre.length =
        some ⟨x0.date, some vs⟩ ∧
      (∀ k, k < gap.length →
        (interpolate_history (pre ++ x0 :: (gap ++ xe :: rest))).get?
            (out_pre.length + 1 + k) =
          (gap.get? k).map (fun x => (⟨x.date, some 0⟩ : MReading))) ∧
      (interpolate_history (pre ++ x0 :: (gap ++ xe :: rest))).get?
          (out_pre.length + 1 + gap.length) = some ⟨xe.date, some ve⟩ := by
  obtain ⟨out_pre, hstruct⟩ :=
    interpolate_history_run pre x0 vs gap xe ve rest hx0 hxe hgap hsorted
  refine ⟨out_pre, hstruct, ?_, ?_, ?_⟩
  · rw [hstruct, List.get?_append_right (le_refl _)]
    simp
  · intro k hk
    rw [hstruct, List.get?_append_right (by omega)]
    have hidx : out_pre.length + 1 + k - out_pre.length = k + 1 := by omega
    rw [hidx, List.get?_cons_succ]
    rw [List.get?_append (by rw [fill_run_length]; simpa using hk)]
    rw [fill_run_get, List.get?_map]
    cases hgk : gap.get? k with
    | none => rfl
    | some x =>
      have hfv : fill_value vs ve gap.length (1 + k) = 0 := by
        unfold fill_value
        rw [if_pos hlt]
      simp [hfv]
  · rw [hstruct, List.get?_append_right (by omega)]
    have hidx : out_pre.length + 1 + gap.length - out_pre.length = gap.length + 1 := by
      omega
    rw [hidx, List.get?_cons_succ]
    rw [List.get?_append_right (by rw [fill_run_length, List.length_map])]
    rw [fill_run_length, List.length_map]
    simp

/-- Witness for C2 at a reset gap that is *not* at the head of the
history — [50@day1, 110@day2, missing, missing, missing, 5@day6] — the
run bounded by 110 and 5 is reached through a preceding valid reading:
the three interior values are exactly 0 and the boundaries keep 110 and
5. -/
theorem c2_reset_gap_witness :
    ∃ out_pre,
      interpolate_history
          ([⟨⟨2025, 1, 1⟩, some 50⟩] ++ ⟨⟨2025, 1, 2⟩, some 110⟩ ::
            ([⟨⟨2025, 1, 3⟩, Option.none⟩, ⟨⟨2025, 1, 4⟩, Option.none⟩,
              ⟨⟨2025, 1, 5⟩, Option.none⟩] ++ ⟨⟨2025, 1, 6⟩, some 5⟩ :: [])) =
        out_pre ++ ⟨⟨2025, 1, 2⟩, some 110⟩ ::
          (fill_run 110 5
            [⟨⟨2025, 1, 3⟩, Option.none⟩, ⟨⟨2025, 1, 4⟩, Option.none⟩,
              (⟨⟨2025, 1, 5⟩, Option.none⟩ : MReading)].length 1
            ([⟨⟨2025, 1, 3⟩, Option.none⟩, ⟨⟨2025, 1, 4⟩, Option.none⟩,
              (⟨⟨2025, 1, 5⟩, Option.none⟩ : MReading)].map MReading.date) ++
            ⟨⟨2025, 1, 6⟩, some 5⟩ :: fill_loop 5 [] []) ∧
      (interpolate_history
          ([⟨⟨2025, 1, 1⟩, some 50⟩] ++ ⟨⟨2025, 1, 2⟩, some 110⟩ ::
            ([⟨⟨2025, 1, 3⟩, Option.none⟩, ⟨⟨2025, 1, 4⟩, Option.none⟩,
              ⟨⟨2025, 1, 5⟩, Option.none⟩] ++ ⟨⟨2025, 1, 6⟩, some 5⟩ :: []))).get?
          out_pre.length = some ⟨⟨2025, 1, 2⟩, some 110⟩ ∧
      (∀ k,
        k < [⟨⟨2025, 1, 3⟩, Option.none⟩, ⟨⟨2025, 1, 4⟩, Option.none⟩,
              (⟨⟨2025, 1, 5⟩, Option.none⟩ : MReading)].length →
        (interpolate_history
            ([⟨⟨2025, 1, 1⟩, some 50⟩] ++ ⟨⟨2025, 1, 2⟩, some 110⟩ ::
              ([⟨⟨2025, 1, 3⟩, Option.none⟩, ⟨⟨2025, 1, 4⟩, Option.none⟩,
                ⟨⟨2025, 1, 5⟩, Option.none⟩] ++ ⟨⟨2025, 1, 6⟩, some 5⟩ :: []))).get?
            (out_pre.length + 1 + k) =
          ([⟨⟨2025, 1, 3⟩, Option.none⟩, ⟨⟨2025, 1, 4⟩, Option.none⟩,
            (⟨⟨2025, 1, 5⟩, Option.none⟩ : MReading)].get? k).map
            (fun x => (⟨x.date, some 0⟩ : MReading))) ∧
      (interpolate_history
          ([⟨⟨2025, 1, 1⟩, some 50⟩] ++ ⟨⟨2025, 1, 2⟩, some 110⟩ ::
            ([⟨⟨2025, 1, 3⟩, Option.none⟩, ⟨⟨2025, 1, 4⟩, Option.none⟩,
              ⟨⟨2025, 1, 5⟩, Option.none⟩] ++ ⟨⟨2025, 1, 6⟩, some 5⟩ :: []))).get?
          (out_pre.length + 1 +
            [⟨⟨2025, 1, 3⟩, Option.none⟩, ⟨⟨2025, 1, 4⟩, Option.none⟩,
              (⟨⟨2025, 1, 5⟩, Option.none⟩ : MReading)].length) =
        some ⟨⟨2025, 1, 6⟩, some 5⟩ :=
  c2_reset_gap [⟨⟨2025, 1, 1⟩, some 50⟩] ⟨⟨2025, 1, 2⟩, some 110⟩ 110
    [⟨⟨2025, 1, 3⟩, Option.none⟩, ⟨⟨2025, 1, 4⟩, Option.none⟩, ⟨⟨2025, 1, 5⟩, Option.none⟩]
    ⟨⟨2025, 1, 6⟩, some 5⟩ 5 [] rfl rfl (by decide) (by decide) (by decide)

/-- C3.  Linear interpolation (spec-modelled interpolator): for *every*
interior run of n missing readings in the history — the run may be
preceded by any prefix of earlier readings and earlier gaps — bounded
by valid `v_start` and `v_end` with `v_end > v_start`, the k-th missing
step (1-indexed, at offset k past the run's left boundary in the
output) receives exactly `v_start + (v_end - v_start) * k / (n + 1)`,
and the boundary readings keep their values. -/
theorem c3_linear_gap (pre : List MReading) (x0 : MReading) (vs : Rat)
    (gap : List MReading) (xe : MReading) (ve : Rat) (rest : List MReading)
    (hx0 : x0.value = some vs) (hxe : xe.value = some ve)
    (hgap : ∀ x ∈ gap, x.value = Option.none)
    (hsorted : strictly_dated (pre ++ x0 :: (gap ++ xe :: rest)))
    (hlt : vs < ve) :
    ∃ out_pre,
      interpolate_history (pre ++ x0 :: (gap ++ xe :: rest)) =
        out_pre ++ ⟨x0.date, some vs⟩ ::
          (fill_run vs ve gap.length 1 (gap.map MReading.date) ++
            ⟨xe.date, some ve⟩ :: fill_loop ve [] rest) ∧
      (interpolate_history (pre ++ x0 :: (gap ++ xe :: rest))).get? out_pre.length =
        some ⟨x0.date, some vs⟩ ∧
      (∀ k, k < gap.length →
        (interpolate_history (pre ++ x0 :: (gap ++ xe :: rest))).get?
            (out_pre.length + 1 + k) =
          (gap.get? k).map (fun x =>
            (⟨x.date,
              some (vs + (ve - vs) * ((k : Rat) + 1) / ((gap.length : Rat) + 1))⟩ :
              MReading))) ∧
      (interpolate_history (pre ++ x0 :: (gap ++ xe :: rest))).get?
          (out_pre.length + 1 + gap.length) = some ⟨xe.date, some ve⟩ := by
  obtain ⟨out_pre, hstruct⟩ :=
    interpolate_history_run pre x0 vs gap xe ve rest hx0 hxe hgap hsorted
  refine ⟨out_pre, hstruct, ?_, ?_, ?_⟩
  · rw [hstruct, List.get?_append_right (le_refl _)]
    simp
  · intro k hk
    rw [hstruct, List.get?_append_right (by omega)]
    have hidx : out_pre.length + 1 + k - out_pre.length = k + 1 := by omega
    rw [hidx, List.get?_cons_succ]
    rw [List.get?_append (by rw [fill_run_length]; simpa using hk)]
    rw [fill_run_get, List.get?_map]
    cases hgk : gap.get? k with
    | none => rfl
    | some x =>
      have hfv : fill_value vs ve gap.length (1 + k) =
          vs + (ve - vs) * ((k : Rat) + 1) / ((gap.length : Rat) + 1) := by
        unfold fill_value
        rw [if_neg (not_lt.mpr (le_of_lt hlt)), if_neg (ne_of_gt hlt)]
        push_cast
        ring
      simp [hfv]
  · rw [hstruct, List.get?_append_right (by omega)]
    have hidx : out_pre.length + 1 + gap.length - out_pre.length = gap.length + 1 := by
      omega
    rw [hidx, List.get?_cons_succ]
    rw [List.get?_append_right (by rw [fill_run_length, List.length_map])]
    rw [fill_run_length, List.length_map]
    simp

/-- Witness for C3 at the repository test-suite's multiple-gap scenario
[100@day1, missing@day2, 200@day3, missing@day4, missing@day5,
400@day6]: the *second* interior run (bounded by 200 and 400, preceded
by an earlier reading and an earlier gap) receives
200 + 200·k/3 — 800/3 (= 266.66…) and 1000/3 (= 333.33…) — exactly. -/
theorem c3_linear_gap_witness :
    (∃ out_pre,
      interpolate_history
          ([⟨⟨2025, 1, 1⟩, some 100⟩, ⟨⟨2025, 1, 2⟩, Option.none⟩] ++
            ⟨⟨2025, 1, 3⟩, some 200⟩ ::
            ([⟨⟨2025, 1, 4⟩, Option.none⟩, ⟨⟨2025, 1, 5⟩, Option.none⟩] ++
              ⟨⟨2025, 1, 6⟩, some 400⟩ :: [])) =
        out_pre ++ ⟨⟨2025, 1, 3⟩, some 200⟩ ::
          (fill_run 200 400
            [⟨⟨2025, 1, 4⟩, Option.none⟩, (⟨⟨2025, 1, 5⟩, Option.none⟩ : MReading)].length 1
            ([⟨⟨2025, 1, 4⟩, Option.none⟩,
              (⟨⟨2025, 1, 5⟩, Option.none⟩ : MReading)].map MReading.date) ++
            ⟨⟨2025, 1, 6⟩, some 400⟩ :: fill_loop 400 [] []) ∧
      (interpolate_history
          ([⟨⟨2025, 1, 1⟩, some 100⟩, ⟨⟨2025, 1, 2⟩, Option.none⟩] ++
            ⟨⟨2025, 1, 3⟩, some 200⟩ ::
            ([⟨⟨2025, 1, 4⟩, Option.none⟩, ⟨⟨2025, 1, 5⟩, Option.none⟩] ++
              ⟨⟨2025, 1, 6⟩, some 400⟩ :: []))).get? out_pre.length =
        some ⟨⟨2025, 1, 3⟩, some 200⟩ ∧
      (∀ k,
        k < [⟨⟨2025, 1, 4⟩, Option.none⟩, (⟨⟨2025, 1, 5⟩, Option.none⟩ : MReading)].length →
        (interpolate_history
            ([⟨⟨2025, 1, 1⟩, some 100⟩, ⟨⟨2025, 1, 2⟩, Option.none⟩] ++
              ⟨⟨2025, 1, 3⟩, some 200⟩ ::
              ([⟨⟨2025, 1, 4⟩, Option.none⟩, ⟨⟨2025, 1, 5⟩, Option.none⟩] ++
                ⟨⟨2025, 1, 6⟩, some 400⟩ :: []))).get? (out_pre.length + 1 + k) =
          ([⟨⟨2025, 1, 4⟩, Option.none⟩,
            (⟨⟨2025, 1, 5⟩, Option.none⟩ : MReading)].get? k).map
            (fun x =>
              (⟨x.date,
                some (200 + (400 - 200) * ((k : Rat) + 1) /
                  (([⟨⟨2025, 1, 4⟩, Option.none⟩,
                    (⟨⟨2025, 1, 5⟩, Option.none⟩ : MReading)].length : Rat) + 1))⟩ :
                MReading))) ∧
      (interpolate_history
          ([⟨⟨2025, 1, 1⟩, some 100⟩, ⟨⟨2025, 1, 2⟩, Option.none⟩] ++
            ⟨⟨2025, 1, 3⟩, some 200⟩ ::
            ([⟨⟨2025, 1, 4⟩, Option.none⟩, ⟨⟨2025, 1, 5⟩, Option.none⟩] ++
              ⟨⟨2025, 1, 6⟩, some 400⟩ :: []))).get?
          (out_pre.length + 1 +
            [⟨⟨2025, 1, 4⟩, Option.none⟩,
              (⟨⟨2025, 1, 5⟩, Option.none⟩ : MReading)].length) =
        some ⟨⟨2025, 1, 6⟩, some 400⟩) ∧
    200 + (400 - 200) * ((0 : Rat) + 1) / ((2 : Rat) + 1) = 800 / 3 ∧
    200 + (400 - 200) * ((1 : Rat) + 1) / ((2 : Rat) + 1) = 1000 / 3 :=
  ⟨c3_linear_gap [⟨⟨2025, 1, 1⟩, some 100⟩, ⟨⟨2025, 1, 2⟩, Option.none⟩]
    ⟨⟨2025, 1, 3⟩, some 200⟩ 200
    [⟨⟨2025, 1, 4⟩, Option.none⟩, ⟨⟨2025, 1, 5⟩, Option.none⟩]
    ⟨⟨2025, 1, 6⟩, some 400⟩ 400 [] rfl rfl (by decide) (by decide) (by decide),
   by norm_num, by norm_num⟩

end PyCalista
